import Mathlib

/-!
Formal model of `src/memory_dashboard.py` (8086 Memory Allocation Dashboard).

The Python program is a single-threaded Tk application; its core is:
  * `SegmentAllocator` — four fixed segments (CS/DS/SS/ES) with a cursor
    `next_offset`, a limit, and a descending `stack_pointer`;
  * `classify_input` — ordered-precedence classification of a token into a
    segment tag;
  * `parse_input_to_bytes` — tokenization of free-form text into parallel
    byte/token lists;
  * `MemoryDashboard.prepare_allocation` / `next_step` — a queue of 4 steps
    (select-segment, show-offset, compute-physical, write) per (byte, token)
    pair, drained sequentially.

Python exceptions (`MemoryError`) are modelled with `Except`; a method that
mutates `self` is modelled as a function returning the new state next to its
return value.  Mutations performed before a `raise` are kept (the state is
returned together with the error by the step executor below).  Machine
integers: all Python ints are unbounded, so segment fields are `Nat` and the
stack pointer is `Int` (Python `stack_pointer - 2` may in principle go
negative).
-/

/-- Decidable equality for `Except`, so concrete runs can be checked by
`decide`. -/
instance {ε α : Type} [DecidableEq ε] [DecidableEq α] : DecidableEq (Except ε α) := fun x y =>
  match x, y with
  | .ok a, .ok b => if h : a = b then .isTrue (by rw [h]) else .isFalse (by simp [h])
  | .error e, .error f => if h : e = f then .isTrue (by rw [h]) else .isFalse (by simp [h])
  | .ok _, .error _ => .isFalse (by simp)
  | .error _, .ok _ => .isFalse (by simp)

/-- The four segment tags, the keys of `SegmentAllocator.segments`
(`memory_dashboard.py`, lines 8-13). -/
inductive Tag
  | CS
  | DS
  | SS
  | ES
deriving DecidableEq

/-- One entry of the `segments` dict: `{"base": .., "next_offset": .., "limit": ..}`. -/
structure SegInfo where
  base : Nat
  next_offset : Nat
  limit : Nat
deriving DecidableEq

/-- The `segments` dict of `SegmentAllocator.__init__` has exactly the four
fixed keys, so it is a record with one field per tag. -/
structure Segments where
  cs : SegInfo
  ds : SegInfo
  ss : SegInfo
  es : SegInfo
deriving DecidableEq

/-- Dict lookup `self.segments[seg_name]`. -/
def Segments.get (s : Segments) : Tag → SegInfo
  | .CS => s.cs
  | .DS => s.ds
  | .SS => s.ss
  | .ES => s.es

/-- Dict entry update `self.segments[seg_name] = ...` (in the source the
mutation is in-place on the entry; here the whole table is rebuilt). -/
def Segments.set (s : Segments) : Tag → SegInfo → Segments
  | .CS, x => { s with cs := x }
  | .DS, x => { s with ds := x }
  | .SS, x => { s with ss := x }
  | .ES, x => { s with es := x }

/-- The `MemoryError` exceptions raised by the allocator, distinguished by
their message strings (`"{seg_name} out of memory"`, `"Stack overflow"`,
`"Stack underflow"`). -/
inductive MemErr
  | outOfMemory (t : Tag)
  | stackOverflow
  | stackUnderflow
deriving DecidableEq

/-- The state of `SegmentAllocator`. -/
structure SegmentAllocator where
  segments : Segments
  stack_pointer : Int
deriving DecidableEq

/-- `SegmentAllocator.__init__` (lines 7-14). -/
def SegmentAllocator.init : SegmentAllocator :=
  { segments :=
      { cs := { base := 0x1000, next_offset := 0x0000, limit := 0x0FFF }
        ds := { base := 0x2000, next_offset := 0x0000, limit := 0x0FFF }
        ss := { base := 0x3000, next_offset := 0x0000, limit := 0x0FFF }
        es := { base := 0x4000, next_offset := 0x0000, limit := 0x0FFF } }
    stack_pointer := 0xFFFE }

/-- `SegmentAllocator.allocate_byte` (lines 16-22): on success returns
`(base, old next_offset)` and increments the cursor. -/
def allocate_byte (a : SegmentAllocator) (seg_name : Tag) :
    Except MemErr ((Nat × Nat) × SegmentAllocator) :=
  let seg_info := a.segments.get seg_name
  if seg_info.next_offset < seg_info.limit then
    .ok ((seg_info.base, seg_info.next_offset),
      { a with segments :=
          a.segments.set seg_name { seg_info with next_offset := seg_info.next_offset + 1 } })
  else
    .error (.outOfMemory seg_name)

/-- `SegmentAllocator.push_value` (lines 24-28).  The guard compares
`stack_pointer - 1` with `SS.base << 4`; on success the source decrements
first and returns `self.stack_pointer` after the decrement.  The `value`
argument is unused in the source. -/
def push_value (a : SegmentAllocator) (value : Int) : Except MemErr (Int × SegmentAllocator) :=
  if a.stack_pointer - 1 ≥ (((a.segments.get Tag.SS).base <<< 4 : Nat) : Int) then
    .ok (a.stack_pointer - 2, { a with stack_pointer := a.stack_pointer - 2 })
  else
    .error .stackOverflow

/-- `SegmentAllocator.pop_value` (lines 30-35): guard
`stack_pointer < (SS.base << 4) + SS.limit`; returns the pre-increment
pointer. -/
def pop_value (a : SegmentAllocator) : Except MemErr (Int × SegmentAllocator) :=
  if a.stack_pointer <
      (((a.segments.get Tag.SS).base <<< 4 : Nat) : Int) + ((a.segments.get Tag.SS).limit : Int) then
    .ok (a.stack_pointer, { a with stack_pointer := a.stack_pointer + 2 })
  else
    .error .stackUnderflow

/-- `SegmentAllocator.peek_next` (lines 37-41): same guard and result as
`allocate_byte` but no mutation; the unchanged allocator is returned next to
the value to mirror the method-call shape. -/
def peek_next (a : SegmentAllocator) (seg_name : Tag) :
    Except MemErr ((Nat × Nat) × SegmentAllocator) :=
  let seg_info := a.segments.get seg_name
  if seg_info.next_offset < seg_info.limit then
    .ok ((seg_info.base, seg_info.next_offset), a)
  else
    .error (.outOfMemory seg_name)

/-- State after `n` calls of `allocate_byte(tag)` starting from `a`
(a failed call leaves the allocator unchanged, since the source raises before
mutating). -/
def iterAlloc (a : SegmentAllocator) (t : Tag) : Nat → SegmentAllocator
  | 0 => a
  | n + 1 =>
    match allocate_byte (iterAlloc a t n) t with
    | .ok (_, a') => a'
    | .error _ => iterAlloc a t n

lemma Segments.get_set_same (s : Segments) (t : Tag) (x : SegInfo) :
    (s.set t x).get t = x := by
  cases t <;> rfl

lemma Segments.set_set_same (s : Segments) (t : Tag) (x y : SegInfo) :
    (s.set t x).set t y = s.set t y := by
  cases t <;> rfl

lemma Segments.set_get_self (s : Segments) (t : Tag) :
    s.set t (s.get t) = s := by
  cases t <;> rfl

/-- Characterization of the iterated allocator on a fresh segment: after
`k ≤ limit` successful allocations the only change is the cursor of tag `t`. -/
lemma iterAlloc_init_eq (t : Tag) :
    ∀ k, k ≤ 0x0FFF →
      iterAlloc SegmentAllocator.init t k =
        { SegmentAllocator.init with
            segments := SegmentAllocator.init.segments.set t
              { SegmentAllocator.init.segments.get t with next_offset := k } } := by
  intro k
  induction k with
  | zero =>
    intro _
    cases t <;> rfl
  | succ k ih =>
    intro hk
    have hk' : k ≤ 0x0FFF := Nat.le_of_succ_le hk
    have hlt : k < 0x0FFF := hk
    simp only [iterAlloc]
    rw [ih hk']
    cases t <;> simp [allocate_byte, Segments.get, Segments.set, SegmentAllocator.init, hlt]

/-- The segment of tag `t` after `k ≤ limit` iterated allocations. -/
lemma iterAlloc_init_get (t : Tag) (k : Nat) (hk : k ≤ 0x0FFF) :
    (iterAlloc SegmentAllocator.init t k).segments.get t =
      { SegmentAllocator.init.segments.get t with next_offset := k } := by
  rw [iterAlloc_init_eq t k hk, Segments.get_set_same]

/-- C1: for every segment tag, starting from the fresh allocator
(`next_offset = 0`, `limit = 0x0FFF`), the k-th `allocate_byte(tag)` call
(for every `k < limit`) succeeds, returning the pair `(base, k)` and
incrementing the cursor by one (so the calls succeed exactly `limit` times),
and the call after `limit` successes fails with `OutOfMemory(tag)`. -/
theorem allocate_byte_exhausts_at_limit :
    (∀ (t : Tag) (k : Nat), k < 0x0FFF →
      allocate_byte (iterAlloc SegmentAllocator.init t k) t =
        .ok (((SegmentAllocator.init.segments.get t).base, k),
             iterAlloc SegmentAllocator.init t (k + 1))) ∧
    (∀ t : Tag,
      allocate_byte (iterAlloc SegmentAllocator.init t 0x0FFF) t = .error (.outOfMemory t)) := by
  constructor
  · intro t k hk
    rw [iterAlloc_init_eq t k (Nat.le_of_lt hk), iterAlloc_init_eq t (k + 1) hk]
    cases t <;> simp [allocate_byte, Segments.get, Segments.set, SegmentAllocator.init, hk]
  · intro t
    rw [iterAlloc_init_eq t 0x0FFF (le_refl _)]
    cases t <;> decide

/-- Witness for C1: the 4th call on the fresh DS segment succeeds and returns
offset 3. -/
theorem allocate_byte_exhausts_at_limit_witness :
    allocate_byte (iterAlloc SegmentAllocator.init Tag.DS 3) Tag.DS =
      .ok (((SegmentAllocator.init.segments.get Tag.DS).base, 3),
           iterAlloc SegmentAllocator.init Tag.DS 4) :=
  allocate_byte_exhausts_at_limit.1 Tag.DS 3 (by decide)

/-- C2 (code evaluation): from the freshly constructed allocator
(`stack_pointer = 0xFFFE`), `push_value` does not succeed: it raises
`MemoryError("Stack overflow")`, because the guard compares the 16-bit stack
pointer against `SS.base << 4 = 0x30000`, which no 16-bit value can reach. -/
theorem push_value_fresh_always_overflows :
    ∀ value : Int, push_value SegmentAllocator.init value = .error .stackOverflow := by
  intro value
  rfl

/-- C3 (code evaluation): `pop_value` on the freshly constructed allocator,
with no prior push, does not raise `StackUnderflow`: the guard
`stack_pointer < (SS.base << 4) + SS.limit` is `0xFFFE < 0x30FFF`, which is
true, so the pop succeeds, returns the pre-pop pointer `0xFFFE`, and moves the
stack pointer up to `0x10000`. -/
theorem pop_value_fresh_succeeds :
    pop_value SegmentAllocator.init =
      .ok (0xFFFE, { SegmentAllocator.init with stack_pointer := 0x10000 }) := by
  rfl

/-- C5: `peek_next` agrees with `allocate_byte` on success/failure, on the
error raised, and on the returned `(base, offset)` pair, and it never mutates
the allocator: the state it hands back is the input state, so a repeated call
gives the same answer. -/
theorem peek_next_read_only :
    ∀ (a : SegmentAllocator) (t : Tag),
      ((peek_next a t).map Prod.fst = (allocate_byte a t).map Prod.fst) ∧
      (∀ (p : Nat × Nat) (a' : SegmentAllocator), peek_next a t = .ok (p, a') → a' = a) ∧
      (∀ (p : Nat × Nat) (a' : SegmentAllocator), peek_next a t = .ok (p, a') →
        peek_next a' t = .ok (p, a')) := by
  intro a t
  refine ⟨?_, ?_, ?_⟩
  · simp only [peek_next, allocate_byte]
    by_cases h : (a.segments.get t).next_offset < (a.segments.get t).limit
    · rw [if_pos h, if_pos h]
      rfl
    · rw [if_neg h, if_neg h]
  · intro p a' hp
    simp only [peek_next] at hp
    by_cases h : (a.segments.get t).next_offset < (a.segments.get t).limit
    · rw [if_pos h] at hp
      exact (congrArg Prod.snd (Except.ok.inj hp)).symm
    · rw [if_neg h] at hp
      exact absurd hp (by simp)
  · intro p a' hp
    simp only [peek_next] at hp
    by_cases h : (a.segments.get t).next_offset < (a.segments.get t).limit
    · rw [if_pos h] at hp
      have h2 := Except.ok.inj hp
      have ha : a' = a := (congrArg Prod.snd h2).symm
      have hq : p = ((a.segments.get t).base, (a.segments.get t).next_offset) :=
        (congrArg Prod.fst h2).symm
      subst ha
      simp only [peek_next, if_pos h, hq]
    · rw [if_neg h] at hp
      exact absurd hp (by simp)

/-- Witness for C5 applied at the fresh allocator and tag CS: the peek
succeeds with `(0x1000, 0)`, does not mutate, and repeats identically. -/
theorem peek_next_read_only_witness :
    ((peek_next SegmentAllocator.init Tag.CS).map Prod.fst
        = (allocate_byte SegmentAllocator.init Tag.CS).map Prod.fst) ∧
    SegmentAllocator.init = SegmentAllocator.init ∧
    peek_next SegmentAllocator.init Tag.CS = .ok ((0x1000, 0), SegmentAllocator.init) :=
  ⟨(peek_next_read_only SegmentAllocator.init Tag.CS).1,
   (peek_next_read_only SegmentAllocator.init Tag.CS).2.1 (0x1000, 0)
     SegmentAllocator.init (by decide),
   (peek_next_read_only SegmentAllocator.init Tag.CS).2.2 (0x1000, 0)
     SegmentAllocator.init (by decide)⟩

/-- One user-level stack operation: a call of `push_value` (with its unused
argument) or of `pop_value`. -/
inductive StackOp
  | push (value : Int)
  | pop
deriving DecidableEq

/-- Effect of one stack call on the allocator; a raised `MemoryError` leaves
the allocator unchanged (the source raises before mutating). -/
def stackOpStep (a : SegmentAllocator) : StackOp → SegmentAllocator
  | .push v =>
    match push_value a v with
    | .ok (_, a') => a'
    | .error _ => a
  | .pop =>
    match pop_value a with
    | .ok (_, a') => a'
    | .error _ => a

/-- Allocator state reached from construction by a sequence of
`push_value`/`pop_value` calls. -/
def runOps (ops : List StackOp) : SegmentAllocator :=
  ops.foldl stackOpStep SegmentAllocator.init

/-- The stack-pointer invariant exactly as the spec claims it: even-aligned
and within `[SS.base << 4, (SS.base << 4) + SS.limit]`. -/
def claimed_sp_invariant (a : SegmentAllocator) : Prop :=
  a.stack_pointer % 2 = 0 ∧
  (((a.segments.get Tag.SS).base <<< 4 : Nat) : Int) ≤ a.stack_pointer ∧
  a.stack_pointer ≤
    (((a.segments.get Tag.SS).base <<< 4 : Nat) : Int) + ((a.segments.get Tag.SS).limit : Int)

instance (a : SegmentAllocator) : Decidable (claimed_sp_invariant a) := by
  unfold claimed_sp_invariant
  infer_instance

/-- C6 counterexample: the claimed interval fails already at the reachable
state reached by the empty call sequence (construction): the initial stack
pointer `0xFFFE` is below `SS.base << 4 = 0x30000`. -/
theorem claimed_sp_invariant_fails_at_init : ¬ claimed_sp_invariant (runOps []) := by
  decide

/-- Auxiliary invariant for C6: reachable states keep the segment table of
construction, an even stack pointer, and `0xFFFE ≤ SP ≤ 0x31000`. -/
def sp_invariant (a : SegmentAllocator) : Prop :=
  a.segments = SegmentAllocator.init.segments ∧
  a.stack_pointer % 2 = 0 ∧
  (0xFFFE : Int) ≤ a.stack_pointer ∧
  a.stack_pointer ≤
    (((a.segments.get Tag.SS).base <<< 4 : Nat) : Int) + ((a.segments.get Tag.SS).limit : Int) + 1

lemma sp_invariant_step (a : SegmentAllocator) (op : StackOp)
    (h : sp_invariant a) : sp_invariant (stackOpStep a op) := by
  obtain ⟨segs, sp⟩ := a
  obtain ⟨hseg, heven, hlo, hhi⟩ := h
  subst hseg
  have hfloor : ((((SegmentAllocator.init.segments.get Tag.SS).base <<< 4 : Nat)) : Int)
      = 196608 := by decide
  have hlimv : (((SegmentAllocator.init.segments.get Tag.SS).limit : Nat) : Int) = 4095 := by
    decide
  have heven' : sp % 2 = 0 := heven
  have hlo' : (65534 : Int) ≤ sp := hlo
  have hhi' : sp ≤ 196608 + 4095 + 1 := by rw [hfloor, hlimv] at hhi; exact hhi
  cases op with
  | push v =>
    simp only [stackOpStep, push_value]
    by_cases hg :
        sp - 1 ≥ ((((SegmentAllocator.init.segments.get Tag.SS).base <<< 4 : Nat)) : Int)
    · rw [if_pos hg]
      rw [hfloor] at hg
      show sp_invariant { segments := SegmentAllocator.init.segments, stack_pointer := sp - 2 }
      refine ⟨rfl, ?_, ?_, ?_⟩
      · show (sp - 2) % 2 = 0
        omega
      · show (65534 : Int) ≤ sp - 2
        omega
      · show sp - 2 ≤ ((((SegmentAllocator.init.segments.get Tag.SS).base <<< 4 : Nat)) : Int)
            + (((SegmentAllocator.init.segments.get Tag.SS).limit : Nat) : Int) + 1
        rw [hfloor, hlimv]
        omega
    · rw [if_neg hg]
      show sp_invariant { segments := SegmentAllocator.init.segments, stack_pointer := sp }
      refine ⟨rfl, ?_, ?_, ?_⟩
      · show sp % 2 = 0
        omega
      · show (65534 : Int) ≤ sp
        omega
      · show sp ≤ ((((SegmentAllocator.init.segments.get Tag.SS).base <<< 4 : Nat)) : Int)
            + (((SegmentAllocator.init.segments.get Tag.SS).limit : Nat) : Int) + 1
        rw [hfloor, hlimv]
        omega
  | pop =>
    simp only [stackOpStep, pop_value]
    by_cases hg :
        sp < ((((SegmentAllocator.init.segments.get Tag.SS).base <<< 4 : Nat)) : Int)
          + (((SegmentAllocator.init.segments.get Tag.SS).limit : Nat) : Int)
    · rw [if_pos hg]
      rw [hfloor, hlimv] at hg
      show sp_invariant { segments := SegmentAllocator.init.segments, stack_pointer := sp + 2 }
      refine ⟨rfl, ?_, ?_, ?_⟩
      · show (sp + 2) % 2 = 0
        omega
      · show (65534 : Int) ≤ sp + 2
        omega
      · show sp + 2 ≤ ((((SegmentAllocator.init.segments.get Tag.SS).base <<< 4 : Nat)) : Int)
            + (((SegmentAllocator.init.segments.get Tag.SS).limit : Nat) : Int) + 1
        rw [hfloor, hlimv]
        omega
    · rw [if_neg hg]
      show sp_invariant { segments := SegmentAllocator.init.segments, stack_pointer := sp }
      refine ⟨rfl, ?_, ?_, ?_⟩
      · show sp % 2 = 0
        omega
      · show (65534 : Int) ≤ sp
        omega
      · show sp ≤ ((((SegmentAllocator.init.segments.get Tag.SS).base <<< 4 : Nat)) : Int)
            + (((SegmentAllocator.init.segments.get Tag.SS).limit : Nat) : Int) + 1
        rw [hfloor, hlimv]
        omega

lemma sp_invariant_foldl :
    ∀ (ops : List StackOp) (a : SegmentAllocator),
      sp_invariant a → sp_invariant (ops.foldl stackOpStep a) := by
  intro ops
  induction ops with
  | nil => intro a h; exact h
  | cons op rest ih =>
    intro a h
    exact ih _ (sp_invariant_step a op h)

/-- C6 (amended): in every allocator state reachable from construction by
`push_value`/`pop_value` calls, the stack pointer is even-aligned and lies in
`[0xFFFE, (SS.base << 4) + SS.limit + 1]` (concretely `[0xFFFE, 0x31000]`);
the claimed interval `[SS.base << 4, (SS.base << 4) + SS.limit]` does not
contain the initial stack pointer. -/
theorem reachable_sp_even_and_bounded :
    ∀ ops : List StackOp,
      (runOps ops).stack_pointer % 2 = 0 ∧
      (0xFFFE : Int) ≤ (runOps ops).stack_pointer ∧
      (runOps ops).stack_pointer ≤
        ((((runOps ops).segments.get Tag.SS).base <<< 4 : Nat) : Int) +
          (((runOps ops).segments.get Tag.SS).limit : Int) + 1 := by
  intro ops
  have h := sp_invariant_foldl ops SegmentAllocator.init
    ⟨rfl, by decide, by decide, by decide⟩
  exact ⟨h.2.1, h.2.2.1, h.2.2.2⟩

/-- ASCII uppercase on the numeric code point, the effect of Python's
`str.upper()` on the characters the program works with. -/
def upNat (n : Nat) : Nat :=
  if 97 ≤ n ∧ n ≤ 122 then n - 32 else n

/-- `str.upper()` on one character. -/
def pyUpperChar (c : Char) : Char :=
  Char.ofNat (upNat c.toNat)

/-- `token.upper()` (line 51). -/
def pyUpper (s : String) : String :=
  String.mk (s.data.map pyUpperChar)

/-- `a` is a leading block of `b` (the character-list form of Python
`b.startswith(a)`). -/
def isFrontOf : List Char → List Char → Bool
  | [], _ => true
  | _ :: _, [] => false
  | a :: as, b :: bs => a == b && isFrontOf as bs

/-- `needle in hay` on character lists (Python substring containment). -/
def hasSubList (needle : List Char) : List Char → Bool
  | [] => needle.isEmpty
  | c :: rest => isFrontOf needle (c :: rest) || hasSubList needle rest

/-- Python `needle in hay` on strings. -/
def hasSubStr (needle hay : String) : Bool :=
  hasSubList needle.data hay.data

/-- Python `hay.startswith(needle)` on strings. -/
def startsWithStr (needle hay : String) : Bool :=
  isFrontOf needle.data hay.data

/-- Rule 1 of `classify_input` (line 54): explicit extra-segment references. -/
def esCond (t : String) : Bool :=
  hasSubStr "ES:" t || hasSubStr "DEST" t || startsWithStr "MOVS" t

/-- `stack_keywords` (line 58). -/
def stack_keywords : List String := ["PUSH", "POP"]

/-- `code_keywords` (line 63). -/
def code_keywords : List String :=
  ["MOV", "CALL", "JMP", "ADD", "SUB", "MUL", "DIV", "RET", "INC", "DEC"]

/-- `classify_input` (lines 49-72).  The final Python branch tests membership
in `data_keywords` / `isalpha` / `isdigit` but returns `"DS"` in both its
then- and else-arm, so the fall-through is an unconditional `"DS"`. -/
def classify_input (token : String) : String :=
  let t := pyUpper token
  if esCond t then "ES"
  else if stack_keywords.contains t then "SS"
  else if code_keywords.contains t then "CS"
  else "DS"

/-- The same classification, landing in the `Tag` type used as the key of the
allocator's segment table. -/
def classifyTag (token : String) : Tag :=
  let t := pyUpper token
  if esCond t then .ES
  else if stack_keywords.contains t then .SS
  else if code_keywords.contains t then .CS
  else .DS

/-- The dict key (string) each tag stands for. -/
def Tag.str : Tag → String
  | .CS => "CS"
  | .DS => "DS"
  | .SS => "SS"
  | .ES => "ES"

/-- The `Tag`-valued classifier refines the string-valued one from the
source. -/
lemma classifyTag_str (token : String) : (classifyTag token).str = classify_input token := by
  simp only [classifyTag, classify_input]
  split_ifs <;> rfl

lemma upNat_idem (n : Nat) : upNat (upNat n) = upNat n := by
  simp only [upNat]
  split_ifs <;> omega

lemma toNat_ofNat_of_lt (n : Nat) (h : n < 0xd800) : (Char.ofNat n).toNat = n := by
  unfold Char.ofNat
  rw [dif_pos (Or.inl h)]
  rfl

lemma upNat_lt (n : Nat) (h : n < 0xd800) : upNat n < 0xd800 := by
  simp only [upNat]
  split_ifs <;> omega

lemma pyUpperChar_idem (c : Char) : pyUpperChar (pyUpperChar c) = pyUpperChar c := by
  by_cases h : c.toNat < 0xd800
  · simp only [pyUpperChar]
    rw [toNat_ofNat_of_lt _ (upNat_lt _ h), upNat_idem]
  · have hval := c.valid
    have hn : ¬ (97 ≤ c.toNat ∧ c.toNat ≤ 122) := by
      intro hc
      exact h (by omega)
    simp only [pyUpperChar, upNat, if_neg hn, Char.ofNat_toNat]

lemma pyUpper_idem (s : String) : pyUpper (pyUpper s) = pyUpper s := by
  simp only [pyUpper, List.map_map]
  congr 1
  apply List.map_congr_left
  intro c _
  exact pyUpperChar_idem c

/-- C7: `classify_input` is a total, case-insensitive function from arbitrary
strings to the four segment tags, with ordered precedence (rule 1: ES-marker /
destination keyword / string-move leader; rule 2: exact PUSH/POP; rule 3:
exact instruction mnemonics; default DS), and the sample tokens classify as
the spec lists them. -/
theorem classify_input_spec :
    (∀ token : String,
      classify_input token = "ES" ∨ classify_input token = "SS" ∨
      classify_input token = "CS" ∨ classify_input token = "DS") ∧
    (∀ token : String, classify_input (pyUpper token) = classify_input token) ∧
    (∀ token : String, esCond (pyUpper token) = true → classify_input token = "ES") ∧
    (∀ token : String, esCond (pyUpper token) = false →
      stack_keywords.contains (pyUpper token) = true → classify_input token = "SS") ∧
    (∀ token : String, esCond (pyUpper token) = false →
      stack_keywords.contains (pyUpper token) = false →
      code_keywords.contains (pyUpper token) = true → classify_input token = "CS") ∧
    (∀ token : String, esCond (pyUpper token) = false →
      stack_keywords.contains (pyUpper token) = false →
      code_keywords.contains (pyUpper token) = false → classify_input token = "DS") ∧
    (classify_input "ES:DATA" = "ES" ∧ classify_input "PUSH" = "SS" ∧
     classify_input "MOV" = "CS" ∧ classify_input "AX" = "DS" ∧
     classify_input "STRAWBERRY" = "DS") := by
  refine ⟨?_, ?_, ?_, ?_, ?_, ?_, ?_⟩
  · intro token
    simp only [classify_input]
    split_ifs <;> simp
  · intro token
    simp only [classify_input, pyUpper_idem]
  · intro token h
    simp only [classify_input, h, if_true]
  · intro token h1 h2
    simp only [classify_input, h1, h2, Bool.false_eq_true, if_false, if_true]
  · intro token h1 h2 h3
    simp only [classify_input, h1, h2, h3, Bool.false_eq_true, if_false, if_true]
  · intro token h1 h2 h3
    simp only [classify_input, h1, h2, h3, Bool.false_eq_true, if_false]
  · refine ⟨?_, ?_, ?_, ?_, ?_⟩ <;> decide

/-- Witness for C7: every precedence rule discharged at a concrete token. -/
theorem classify_input_spec_witness :
    classify_input "es:1" = "ES" ∧ classify_input "push" = "SS" ∧
    classify_input "jmp" = "CS" ∧ classify_input "qqq" = "DS" ∧
    classify_input (pyUpper "Mov") = classify_input "Mov" :=
  ⟨classify_input_spec.2.2.1 "es:1" (by decide),
   classify_input_spec.2.2.2.1 "push" (by decide) (by decide),
   classify_input_spec.2.2.2.2.1 "jmp" (by decide) (by decide) (by decide),
   classify_input_spec.2.2.2.2.2.1 "qqq" (by decide) (by decide) (by decide),
   classify_input_spec.2.1 "Mov"⟩

/-- Python `\s` whitespace on the ASCII range. -/
def isPySpace (c : Char) : Bool :=
  c == ' ' || c == '\t' || c == '\n' || c == '\r' || c == '\x0b' || c == '\x0c'

/-- A character of the split class `[,\s;]` of `re.split` (line 75). -/
def isSepChar (c : Char) : Bool :=
  c == ',' || c == ';' || isPySpace c

/-- Maximal runs of non-separator characters.  This is
`[t for t in re.split(r"[,\s;]+", text.strip()) if t]`: the `strip`, the
`+` on the class, and the `if not t: continue` of the source together drop
every empty fragment, which is exactly what run-splitting produces. -/
def splitRuns : List Char → List Char → List (List Char)
  | [], acc => if acc.isEmpty then [] else [acc.reverse]
  | c :: rest, acc =>
    if isSepChar c then
      if acc.isEmpty then splitRuns rest [] else acc.reverse :: splitRuns rest []
    else
      splitRuns rest (c :: acc)

/-- `t.isdigit()` for a decimal-digit character (ASCII range). -/
def isDecDigit (c : Char) : Bool :=
  '0' ≤ c && c ≤ '9'

/-- One character of the regex class `[0-9A-Fa-f]`. -/
def isHexDigitChar (c : Char) : Bool :=
  ('0' ≤ c && c ≤ '9') || ('A' ≤ c && c ≤ 'F') || ('a' ≤ c && c ≤ 'f')

def hexDigitVal (c : Char) : Nat :=
  if '0' ≤ c && c ≤ '9' then c.toNat - 48
  else if 'A' ≤ c && c ≤ 'F' then c.toNat - 55
  else if 'a' ≤ c && c ≤ 'f' then c.toNat - 87
  else 0

/-- `int(_, 16)` on a digit run. -/
def hexVal (l : List Char) : Nat :=
  l.foldl (fun acc c => 16 * acc + hexDigitVal c) 0

/-- `int(_)` on a decimal-digit run. -/
def decVal (l : List Char) : Nat :=
  l.foldl (fun acc c => 10 * acc + (c.toNat - 48)) 0

/-- `re.fullmatch(r"0x[0-9A-Fa-f]+", t)` (line 87); the `0x` is
case-sensitive. -/
def is0xHex : List Char → Bool
  | '0' :: 'x' :: rest => !rest.isEmpty && rest.all isHexDigitChar
  | _ => false

/-- `re.fullmatch(r"[0-9A-Fa-f]+H", t, re.IGNORECASE)` (line 89). -/
def isHexH (l : List Char) : Bool :=
  decide (2 ≤ l.length) &&
  (match l.getLast? with
   | some c => c == 'H' || c == 'h'
   | none => false) &&
  l.dropLast.all isHexDigitChar

/-- `re.fullmatch(r"[0-9A-Fa-f]{1,2}", t)` (line 91). -/
def isBareHex (l : List Char) : Bool :=
  (l.length == 1 || l.length == 2) && l.all isHexDigitChar

/-- `t.isdigit()` (line 93) on the ASCII range. -/
def pyIsDigitTok (l : List Char) : Bool :=
  !l.isEmpty && l.all isDecDigit

/-- `t.startswith(q) and t.endswith(q)` (line 82). -/
def isQuoted (l : List Char) (q : Char) : Bool :=
  match l with
  | [] => false
  | c :: _ =>
    c == q &&
    (match l.getLast? with
     | some d => d == q
     | none => false)

/-- `.encode('latin1')` of one character.  (Python raises
`UnicodeEncodeError` above `0xFF`; the dashboard's inputs stay in ASCII.) -/
def latin1Byte (c : Char) : Nat := c.toNat

/-- `.encode("latin1", errors="replace")` of one character: code points above
`0xFF` become `"?"` = 63. -/
def latin1ByteReplace (c : Char) : Nat :=
  if c.toNat ≤ 0xFF then c.toNat else 63

/-- The loop of lines 99-106: minimal little-endian byte expansion
(`v & 0xFF` then `v >>= 8` until zero). -/
def leBytesGo (v : Nat) : List Nat :=
  if h : v = 0 then [] else (v &&& 0xFF) :: leBytesGo (v >>> 8)
termination_by v
decreasing_by
  have : v >>> 8 = v / 2 ^ 8 := Nat.shiftRight_eq_div_pow v 8
  omega

/-- `if v == 0: append(0) else: low-byte loop` (lines 99-106). -/
def pyLeBytes (v : Nat) : List Nat :=
  if v = 0 then [0] else leBytesGo v

/-- The bytes one cleaned token contributes (the per-token body of the loop
in `parse_input_to_bytes`, lines 80-106), with the source's branch order. -/
def tokenBytes (tok : List Char) : List Nat :=
  if isQuoted tok '"' || isQuoted tok '\'' then ((tok.drop 1).dropLast).map latin1Byte
  else if is0xHex tok then pyLeBytes (hexVal (tok.drop 2))
  else if isHexH tok then pyLeBytes (hexVal tok.dropLast)
  else if isBareHex tok then pyLeBytes (hexVal tok)
  else if pyIsDigitTok tok then pyLeBytes (decVal tok)
  else tok.map latin1ByteReplace

/-- `parse_input_to_bytes` (lines 74-108): returns `(bytes_out,
cleaned_tokens)`; every non-empty token is appended to `cleaned_tokens` once
and its byte expansion is appended to `bytes_out`. -/
def parse_input_to_bytes (text : String) : List Nat × List String :=
  let toks := splitRuns text.data []
  ((toks.map tokenBytes).flatten, toks.map String.mk)

/-- C9 (code evaluation): on input `"PUSH AX"` the parser returns SIX bytes
(the latin-1 codes of the characters of both tokens) but only TWO cleaned
tokens — the byte and token sequences are not of equal length, and a token
contributing several bytes appears once, not once per byte. -/
theorem parse_input_to_bytes_unequal_lengths :
    parse_input_to_bytes "PUSH AX" = ([80, 85, 83, 72, 65, 88], ["PUSH", "AX"]) ∧
    (parse_input_to_bytes "PUSH AX").1.length = 6 ∧
    (parse_input_to_bytes "PUSH AX").2.length = 2 := by
  refine ⟨?_, ?_, ?_⟩ <;> decide

/-- The four phases of one byte's allocation trace
(`step_select_segment`, `step_show_offset`, `step_calc_physical`,
`step_write`). -/
inductive Phase
  | selectSegment
  | showOffset
  | computePhysical
  | write
deriving DecidableEq

/-- One queued step.  The source queues closures; each closure captures the
per-byte context `(byte_value, index, token, seg_name)` of `make_steps`
(lines 306-357), so a step is that context plus a phase tag. -/
structure Step where
  phase : Phase
  byteValue : Nat
  index : Nat
  token : String
  segName : Tag
deriving DecidableEq

/-- `make_steps` (lines 306-357): the four phases, in source order, all bound
to the same context. -/
def make_steps (byte_value index : Nat) (token : String) (seg_name : Tag) : List Step :=
  [{ phase := .selectSegment, byteValue := byte_value, index := index,
     token := token, segName := seg_name },
   { phase := .showOffset, byteValue := byte_value, index := index,
     token := token, segName := seg_name },
   { phase := .computePhysical, byteValue := byte_value, index := index,
     token := token, segName := seg_name },
   { phase := .write, byteValue := byte_value, index := index,
     token := token, segName := seg_name }]

/-- The loop body of `prepare_allocation` (lines 301-359):
`for i, (b, tok) in enumerate(zip(bytes_list, tokens))`, classifying each
token once and appending its four steps; `n` is the running value of `i`. -/
def planFrom (n : Nat) : List (Nat × String) → List Step
  | [] => []
  | (b, tok) :: rest => make_steps b n tok (classifyTag tok) ++ planFrom (n + 1) rest

/-- `MemoryDashboard.prepare_allocation` restricted to its queue content:
the queue built from `bytes_list` and `tokens`. -/
def prepare_allocation (bytes_list : List Nat) (tokens : List String) : List Step :=
  planFrom 0 (bytes_list.zip tokens)

/-- The register dict `{"AX":0,"BX":0,"CX":0,"DX":0,"SP":0xFFFE}`
(line 132). -/
structure Registers where
  ax : Nat
  bx : Nat
  cx : Nat
  dx : Nat
  sp : Nat
deriving DecidableEq

/-- One line of the step-by-step execution log, reduced to the data the
source interpolates into the printed text. -/
inductive LogEntry
  | classified (index : Nat) (token : String) (seg : Tag) (base : Nat)
  | nextOffset (index : Nat) (seg : Tag) (off : Nat)
  | physical (index : Nat) (base off : Nat)
  | pushAX
  | popOk (pop_addr new_sp : Int)
  | popErr (e : MemErr)
  | written (index byte : Nat) (seg : Tag) (base off : Nat)
deriving DecidableEq

/-- The dashboard state the steps read and mutate: the allocator, the
`memory` dict (last write first, lookup takes the first hit), the registers,
the shared `current_byte_value` / `current_alloc_info` cells, the log, and
the treeview rows (`tree.insert(.., 0, ..)` prepends). -/
structure DashState where
  allocator : SegmentAllocator
  memory : List (Nat × Nat)
  registers : Registers
  current_byte_value : Option Nat
  current_alloc_info : Option (Tag × Nat × Nat)
  log : List LogEntry
  tree : List (Nat × Nat × Nat × Tag)
deriving DecidableEq

/-- `self.memory[phys]` lookup: the most recent write wins. -/
def memLookup (m : List (Nat × Nat)) (addr : Nat) : Option Nat :=
  (m.find? (fun p => p.1 == addr)).map Prod.snd

/-- The dashboard state right after `MemoryDashboard.__init__`
(lines 125-132). -/
def DashState.init : DashState :=
  { allocator := SegmentAllocator.init
    memory := []
    registers := { ax := 0, bx := 0, cx := 0, dx := 0, sp := 0xFFFE }
    current_byte_value := none
    current_alloc_info := none
    log := []
    tree := [] }

/-- An exception escaping a step: a `MemoryError` from the allocator, or the
`TypeError` Python would raise when a context-reading step runs with
`current_alloc_info`/`current_byte_value` still `None`. -/
inductive ExecErr
  | mem (e : MemErr)
  | badContext
deriving DecidableEq

/-- The "Handle special operations" block of `step_write` (lines 331-345):
`PUSH`/`SS` sets AX to the demonstration value; `POP`/`SS` attempts
`pop_value`, setting BX and logging on success and catching + logging the
`MemoryError` on failure; every other token/segment combination does
nothing. -/
def writeRegEffects (st : DashState) (token : String) (seg_name : Tag) : DashState :=
  if pyUpper token == "PUSH" && (seg_name == Tag.SS) then
    { st with
        registers := { st.registers with ax := 0x1234 }
        log := st.log ++ [.pushAX] }
  else if pyUpper token == "POP" && (seg_name == Tag.SS) then
    match pop_value st.allocator with
    | .ok (pop_addr, alloc'') =>
      { st with
          allocator := alloc''
          registers := { st.registers with bx := 0x1234 }
          log := st.log ++ [.popOk pop_addr alloc''.stack_pointer] }
    | .error e => { st with log := st.log ++ [.popErr e] }
  else st

/-- Execute one queued step (the bodies of `step_select_segment`,
`step_show_offset`, `step_calc_physical`, `step_write`).  The state is
returned even on error, keeping the mutations performed before the raise
(in `step_write` the memory write precedes the `allocate_byte` call); a
`some` error means the exception escapes the step, which stops an auto drain.
The `POP` branch of `step_write` catches the `pop_value` error itself and
only logs it. -/
def execStep (st : DashState) (s : Step) : DashState × Option ExecErr :=
  match s.phase with
  | .selectSegment =>
    match peek_next st.allocator s.segName with
    | .error e => (st, some (.mem e))
    | .ok ((base, off), _) =>
      ({ st with
          current_byte_value := some s.byteValue
          current_alloc_info := some (s.segName, base, off)
          log := st.log ++ [.classified s.index s.token s.segName base] }, none)
  | .showOffset =>
    match st.current_alloc_info with
    | none => (st, some .badContext)
    | some (seg_name, _, off) =>
      ({ st with log := st.log ++ [.nextOffset s.index seg_name off] }, none)
  | .computePhysical =>
    match st.current_alloc_info with
    | none => (st, some .badContext)
    | some (_, base, off) =>
      ({ st with log := st.log ++ [.physical s.index base off] }, none)
  | .write =>
    match st.current_alloc_info, st.current_byte_value with
    | none, _ => (st, some .badContext)
    | some _, none => (st, some .badContext)
    | some (seg_name, base, off), some bv =>
      let phys := (base <<< 4) + off
      let st1 := { st with memory := (phys, bv) :: st.memory }
      match allocate_byte st1.allocator seg_name with
      | .error e => (st1, some (.mem e))
      | .ok (_, alloc') =>
        let st2 := { st1 with allocator := alloc' }
        let st3 := writeRegEffects st2 s.token seg_name
        ({ st3 with
            tree := (base, off, bv, seg_name) :: st3.tree
            log := st3.log ++ [.written s.index bv seg_name base off] }, none)

/-- Sequential drain of the step queue (`next_step` repeatedly, or the
`run_auto_steps` loop): pop the head, execute it, continue while no exception
escapes. -/
def runSteps (st : DashState) : List Step → DashState × Option ExecErr
  | [] => (st, none)
  | s :: rest =>
    match execStep st s with
    | (st', none) => runSteps st' rest
    | (st', some e) => (st', some e)

lemma writeRegEffects_memory (st : DashState) (token : String) (seg_name : Tag) :
    (writeRegEffects st token seg_name).memory = st.memory := by
  unfold writeRegEffects
  split
  · rfl
  split
  · split <;> rfl
  · rfl

lemma execStep_select (st : DashState) (b i : Nat) (tok : String) (t : Tag)
    (h : (st.allocator.segments.get t).next_offset < (st.allocator.segments.get t).limit) :
    execStep st { phase := .selectSegment, byteValue := b, index := i, token := tok,
                  segName := t } =
      ({ st with
           current_byte_value := some b
           current_alloc_info := some (t, (st.allocator.segments.get t).base,
             (st.allocator.segments.get t).next_offset)
           log := st.log ++ [.classified i tok t (st.allocator.segments.get t).base] },
       none) := by
  simp only [execStep, peek_next]
  rw [if_pos h]

lemma execStep_showOffset (st : DashState) (b i : Nat) (tok : String) (t t' : Tag)
    (base off : Nat)
    (hcai : st.current_alloc_info = some (t', base, off)) :
    execStep st { phase := .showOffset, byteValue := b, index := i, token := tok,
                  segName := t } =
      ({ st with log := st.log ++ [.nextOffset i t' off] }, none) := by
  simp only [execStep, hcai]

lemma execStep_computePhysical (st : DashState) (b i : Nat) (tok : String) (t t' : Tag)
    (base off : Nat)
    (hcai : st.current_alloc_info = some (t', base, off)) :
    execStep st { phase := .computePhysical, byteValue := b, index := i, token := tok,
                  segName := t } =
      ({ st with log := st.log ++ [.physical i base off] }, none) := by
  simp only [execStep, hcai]

lemma execStep_write_ok (st : DashState) (b i : Nat) (tok : String) (t t' : Tag)
    (base off bv : Nat)
    (hcai : st.current_alloc_info = some (t', base, off))
    (hcbv : st.current_byte_value = some bv)
    (h : (st.allocator.segments.get t').next_offset < (st.allocator.segments.get t').limit) :
    ∃ st' : DashState,
      execStep st { phase := .write, byteValue := b, index := i, token := tok,
                    segName := t } = (st', none) ∧
      st'.memory = ((base <<< 4) + off, bv) :: st.memory := by
  simp only [execStep, hcai, hcbv, allocate_byte]
  rw [if_pos h]
  exact ⟨_, rfl, writeRegEffects_memory _ _ _⟩

/-- C4: running the four steps of one byte from any dashboard state whose
segment has room (the `peek_next` preview at SelectSegment time returns
`(base, off)`) commits the byte into the memory map at physical address
`(base << 4) + off` — the pair previewed at SelectSegment time — with no
escaping exception; and `(0x2000 << 4) + 0x0003 = 0x20003`. -/
theorem write_commits_at_peeked_physical :
    (∀ (st : DashState) (b i : Nat) (tok : String) (t : Tag) (base off : Nat),
      peek_next st.allocator t = .ok ((base, off), st.allocator) →
      (runSteps st (make_steps b i tok t)).2 = none ∧
      memLookup (runSteps st (make_steps b i tok t)).1.memory ((base <<< 4) + off) = some b) ∧
    ((0x2000 <<< 4) + 0x0003 : Nat) = 0x20003 := by
  constructor
  · intro st b i tok t base off hp
    obtain ⟨alloc, mem, regs, cbv, cai, lg, tr⟩ := st
    simp only [peek_next] at hp
    by_cases h : (alloc.segments.get t).next_offset < (alloc.segments.get t).limit
    case neg =>
      rw [if_neg h] at hp
      exact absurd hp (by simp)
    rw [if_pos h] at hp
    have h2 := Except.ok.inj hp
    have hbase : (alloc.segments.get t).base = base := congrArg (fun x => x.1.1) h2
    have hoff : (alloc.segments.get t).next_offset = off := congrArg (fun x => x.1.2) h2
    subst hbase
    subst hoff
    simp only [make_steps, runSteps,
      execStep_select ⟨alloc, mem, regs, cbv, cai, lg, tr⟩ b i tok t h]
    simp only [execStep_showOffset
      { allocator := alloc, memory := mem, registers := regs, current_byte_value := some b,
        current_alloc_info := some (t, (alloc.segments.get t).base,
          (alloc.segments.get t).next_offset),
        log := lg ++ [LogEntry.classified i tok t (alloc.segments.get t).base], tree := tr }
      b i tok t t ((alloc.segments.get t).base) ((alloc.segments.get t).next_offset) rfl]
    simp only [execStep_computePhysical
      { allocator := alloc, memory := mem, registers := regs, current_byte_value := some b,
        current_alloc_info := some (t, (alloc.segments.get t).base,
          (alloc.segments.get t).next_offset),
        log := (lg ++ [LogEntry.classified i tok t (alloc.segments.get t).base]) ++
          [LogEntry.nextOffset i t (alloc.segments.get t).next_offset], tree := tr }
      b i tok t t ((alloc.segments.get t).base) ((alloc.segments.get t).next_offset) rfl]
    obtain ⟨st4, e4, hmem⟩ := execStep_write_ok
      { allocator := alloc, memory := mem, registers := regs, current_byte_value := some b,
        current_alloc_info := some (t, (alloc.segments.get t).base,
          (alloc.segments.get t).next_offset),
        log := lg ++ [LogEntry.classified i tok t (alloc.segments.get t).base] ++
            [LogEntry.nextOffset i t (alloc.segments.get t).next_offset] ++
          [LogEntry.physical i (alloc.segments.get t).base (alloc.segments.get t).next_offset],
        tree := tr }
      b i tok t t ((alloc.segments.get t).base) ((alloc.segments.get t).next_offset) b
      rfl rfl h
    simp only [e4]
    refine ⟨trivial, ?_⟩
    rw [hmem]
    simp [memLookup]
  · decide

/-- Witness for C4: byte `0x41` for token `"AX"` (classified DS) on the fresh
dashboard lands at physical address `0x20000 = (0x2000 << 4) + 0`. -/
theorem write_commits_at_peeked_physical_witness :
    (runSteps DashState.init (make_steps 0x41 0 "AX" Tag.DS)).2 = none ∧
    memLookup (runSteps DashState.init (make_steps 0x41 0 "AX" Tag.DS)).1.memory
      ((0x2000 <<< 4) + 0) = some 0x41 :=
  write_commits_at_peeked_physical.1 DashState.init 0x41 0 "AX" Tag.DS 0x2000 0 (by decide)

lemma runSteps_append (st : DashState) (q1 q2 : List Step) :
    runSteps st (q1 ++ q2) =
      match runSteps st q1 with
      | (st', none) => runSteps st' q2
      | (st', some e) => (st', some e) := by
  induction q1 generalizing st with
  | nil => rfl
  | cons s rest ih =>
    simp only [List.cons_append, runSteps]
    rcases hE : execStep st s with ⟨st', err⟩
    cases err with
    | none => exact ih st'
    | some e => rfl

lemma planFrom_length : ∀ (n : Nat) (l : List (Nat × String)),
    (planFrom n l).length = 4 * l.length := by
  intro n l
  induction l generalizing n with
  | nil => rfl
  | cons p rest ih =>
    rcases p with ⟨b, tok⟩
    simp [planFrom, make_steps, ih]
    omega

lemma planFrom_drop_take :
    ∀ (l : List (Nat × String)) (n i : Nat) (b : Nat) (tok : String),
      l[i]? = some (b, tok) →
      ((planFrom n l).drop (4 * i)).take 4 = make_steps b (n + i) tok (classifyTag tok) := by
  intro l
  induction l with
  | nil =>
    intro n i b tok hgt
    simp at hgt
  | cons p rest ih =>
    intro n i b tok hgt
    rcases p with ⟨pb, ptok⟩
    cases i with
    | zero =>
      simp at hgt
      obtain ⟨rfl, rfl⟩ := hgt
      rfl
    | succ j =>
      simp at hgt
      have hj := ih (n + 1) j b tok hgt
      have h4 : 4 * (j + 1) = (make_steps pb n ptok (classifyTag ptok)).length + 4 * j := by
        simp [make_steps]
        omega
      show ((planFrom n ((pb, ptok) :: rest)).drop (4 * (j + 1))).take 4 = _
      rw [show planFrom n ((pb, ptok) :: rest)
            = make_steps pb n ptok (classifyTag ptok) ++ planFrom (n + 1) rest from rfl]
      rw [h4, List.drop_append, hj]
      congr 1
      omega

lemma planFrom_index_lt :
    ∀ (l : List (Nat × String)) (n : Nat) (s : Step),
      s ∈ planFrom n l → s.index < n + l.length := by
  intro l
  induction l with
  | nil =>
    intro n s hs
    simp [planFrom] at hs
  | cons p rest ih =>
    intro n s hs
    rcases p with ⟨b, tok⟩
    simp only [planFrom, List.mem_append] at hs
    rcases hs with hs | hs
    · have hidx : s.index = n := by
        simp [make_steps] at hs
        rcases hs with h | h | h | h <;> (subst h; rfl)
      simp [hidx]
    · have := ih (n + 1) s hs
      simp only [List.length_cons]
      omega

lemma zip_take_left :
    ∀ (bl : List Nat) (tl : List String), bl.zip tl = (bl.take tl.length).zip tl := by
  intro bl
  induction bl with
  | nil => intro tl; simp
  | cons b rest ih =>
    intro tl
    cases tl with
    | nil => simp
    | cons t ts => simp [ih ts]

/-- C8: every planned (byte, token) pair expands to exactly 4 steps; the 4
steps of the pair at position `i` sit at queue positions `4i .. 4i+3` with
phases SelectSegment, ShowOffset, ComputePhysical, Write in that fixed order;
and the sequential drain runs any error-free queue position-by-position: the
run of the whole queue factors through the complete run of the first `n`
steps before the remaining steps touch the state (so every log/memory effect
of byte `i` is applied before any step of byte `i+1` executes). -/
theorem step_queue_ordered :
    (∀ (bytes_list : List Nat) (tokens : List String),
      (prepare_allocation bytes_list tokens).length = 4 * (bytes_list.zip tokens).length) ∧
    (∀ (b i : Nat) (tok : String) (t : Tag),
      (make_steps b i tok t).map Step.phase =
        [Phase.selectSegment, Phase.showOffset, Phase.computePhysical, Phase.write]) ∧
    (∀ (bytes_list : List Nat) (tokens : List String) (i b : Nat) (tok : String),
      (bytes_list.zip tokens)[i]? = some (b, tok) →
      ((prepare_allocation bytes_list tokens).drop (4 * i)).take 4 =
        make_steps b i tok (classifyTag tok)) ∧
    (∀ (st st' : DashState) (bytes_list : List Nat) (tokens : List String) (n : Nat),
      runSteps st ((prepare_allocation bytes_list tokens).take n) = (st', none) →
      runSteps st (prepare_allocation bytes_list tokens) =
        runSteps st' ((prepare_allocation bytes_list tokens).drop n)) := by
  refine ⟨?_, ?_, ?_, ?_⟩
  · intro bl tl
    exact planFrom_length 0 (bl.zip tl)
  · intro b i tok t
    rfl
  · intro bl tl i b tok h
    have := planFrom_drop_take (bl.zip tl) 0 i b tok h
    simpa using this
  · intro st st' bl tl n htake
    conv_lhs => rw [← List.take_append_drop n (prepare_allocation bl tl)]
    rw [runSteps_append, htake]

/-- Witness for C8: the second pair of `[7, 8]` / `["PUSH", "AX"]` occupies
queue positions 4-7, and the drain of the whole queue factors through the
complete run of the first byte's 4 steps. -/
theorem step_queue_ordered_witness :
    ((prepare_allocation [7, 8] ["PUSH", "AX"]).drop (4 * 1)).take 4 =
      make_steps 8 1 "AX" (classifyTag "AX") ∧
    runSteps DashState.init (prepare_allocation [7, 8] ["PUSH", "AX"]) =
      runSteps (runSteps DashState.init
          ((prepare_allocation [7, 8] ["PUSH", "AX"]).take 4)).1
        ((prepare_allocation [7, 8] ["PUSH", "AX"]).drop 4) :=
  ⟨step_queue_ordered.2.2.1 [7, 8] ["PUSH", "AX"] 1 8 "AX" (by decide),
   step_queue_ordered.2.2.2 DashState.init
     (runSteps DashState.init ((prepare_allocation [7, 8] ["PUSH", "AX"]).take 4)).1
     [7, 8] ["PUSH", "AX"] 4 (by decide)⟩

/-- C10: the step planner zips bytes with tokens positionally, so the queue
holds exactly `4 * min(len bytes, len tokens)` steps, the queue is unchanged
when surplus bytes beyond the token count are removed, every planned step's
byte position lies below the minimum, and concretely 3 bytes with 1 token
plan only 4 steps (one byte). -/
theorem surplus_bytes_get_no_steps :
    (∀ (bytes_list : List Nat) (tokens : List String),
      (prepare_allocation bytes_list tokens).length
        = 4 * min bytes_list.length tokens.length) ∧
    (∀ (bytes_list : List Nat) (tokens : List String),
      prepare_allocation bytes_list tokens
        = prepare_allocation (bytes_list.take tokens.length) tokens) ∧
    (∀ (bytes_list : List Nat) (tokens : List String) (s : Step),
      s ∈ prepare_allocation bytes_list tokens →
      s.index < min bytes_list.length tokens.length) ∧
    (prepare_allocation [1, 2, 3] ["A"]).length = 4 := by
  refine ⟨?_, ?_, ?_, ?_⟩
  · intro bl tl
    rw [prepare_allocation, planFrom_length, List.length_zip]
  · intro bl tl
    rw [prepare_allocation, prepare_allocation, zip_take_left]
  · intro bl tl s hs
    have := planFrom_index_lt (bl.zip tl) 0 s hs
    rw [List.length_zip] at this
    omega
  · decide

/-- Witness for C10: the single planned step block of `[1]` / `["A"]`
contains only byte position 0. -/
theorem surplus_bytes_get_no_steps_witness :
    ({ phase := Phase.selectSegment, byteValue := 1, index := 0, token := "A",
       segName := Tag.DS } : Step).index
      < min ([1] : List Nat).length (["A"] : List String).length :=
  surplus_bytes_get_no_steps.2.2.1 [1] ["A"] _ (by decide)
